import Mathlib

/-! Shallow embedding of the Confucian Café dialogue orchestrator core:
the turn scheduler of src/hooks/useQueueOrchestrator.ts, the bounded
memory store of src/lib/memory.ts, and the model-response parser of
src/lib/parser.ts.  JavaScript objects keyed by strings
(`Record<string, T>`, `Map<string, T>`) are modelled as total functions
from `String`, reading an absent key as the empty value, exactly as the
source does via `?? []` / `|| []`.  All definitions are executable. -/

/-- A participant identity; only the fields the scheduler reads. -/
structure Philosopher where
  id : String
  name : String
deriving DecidableEq

/-- A stimulus message (`MessageEvent` in src/types); only the fields the
scheduler and the memory store read are modelled. -/
structure MessageEvent where
  id : String
  speaker : String
  recipients : List String
  surface : String
  timestamp : String
  phase : String
  insight : Option String := none
deriving DecidableEq

/-- One pending obligation: agent `philosopherId` must respond to `trigger`. -/
structure ResponseTask where
  id : String
  philosopherId : String
  trigger : MessageEvent
deriving DecidableEq

/-- A stored, display-ready record of a past message (src/lib/memory.ts). -/
structure MemoryEntry where
  id : String
  timestamp : String
  speaker : String
  recipients : List String
  message : String
  phase : String
deriving DecidableEq

/-- Bounded history keyed by visibility (src/lib/memory.ts `MemoryState`).
The `Record<string, MemoryEntry[]>` store is a total function; a key the
source never wrote holds `[]`. -/
structure MemoryState where
  max : Nat
  store : String → List MemoryEntry

/-- `philosophers.map(p => p.id)` — the canonical agent-id table. -/
def philosopherIdsOf (phils : List Philosopher) : List String :=
  phils.map (fun p => p.id)

/-- `philosopherMap.has(id)` — the map is keyed by `philosopher.id`. -/
def philosopherMapHas (phils : List Philosopher) (i : String) : Bool :=
  (philosopherIdsOf phils).contains i

/-- `philosopherMap.get(id)`. -/
def philosopherMapGet (phils : List Philosopher) (i : String) : Option Philosopher :=
  phils.find? (fun p => p.id = i)

/-- Insertion-order deduplication, the semantics of building a JS `Set`
from a list: keep the first occurrence of each element. -/
def dedupKeepFirst : List String → List String → List String
  | [], _ => []
  | x :: xs, seen =>
      if x ∈ seen then dedupKeepFirst xs seen
      else x :: dedupKeepFirst xs (x :: seen)

/-- The derived `MemoryEntry` of a message (built identically in
`pushMemoryEntry` and in the scheduler's in-batch store step). -/
def entryOfMessage (m : MessageEvent) : MemoryEntry :=
  { id := m.id, timestamp := m.timestamp, speaker := m.speaker,
    recipients := m.recipients, message := m.surface, phase := m.phase }

/-- Last `n` elements of a list. -/
def takeLast {α : Type} (n : Nat) (l : List α) : List α :=
  (l.reverse.take n).reverse

/-- JavaScript `list.slice(-n)` for a natural `n`: for `n = 0`,
`slice(-0)` is `slice(0)`, the whole list; otherwise the last `n`
elements. -/
def sliceLast {α : Type} (n : Nat) (l : List α) : List α :=
  if n = 0 then l else takeLast n l

/-- Target buckets of `pushMemoryEntry`:
`new Set(message.recipients.length ? message.recipients : [])` followed by
`targets.add('all')` — the deduplicated literal recipients plus the
broadcast bucket. -/
def pushTargets (m : MessageEvent) : List String :=
  let base := dedupKeepFirst (if m.recipients = [] then [] else m.recipients) []
  if "all" ∈ base then base else base ++ ["all"]

/-- `createEmptyMemories` (src/lib/memory.ts): every bucket starts empty,
so in the total-function model the store is constantly `[]`. -/
def createEmptyMemories (_phils : List Philosopher) (max : Nat := 50) : MemoryState :=
  { max := max, store := fun _ => [] }

/-- `pushMemoryEntry` (src/lib/memory.ts): append the derived entry to
every target bucket and truncate each with `slice(-max)`. -/
def pushMemoryEntry (state : MemoryState) (message : MessageEvent) : MemoryState :=
  let entry := entryOfMessage message
  { state with
    store := (pushTargets message).foldl
      (fun st target => fun k =>
        if k = target then sliceLast state.max (st target ++ [entry]) else st k)
      state.store }

/-- `getLatestFor` (src/lib/memory.ts). -/
def getLatestFor (state : MemoryState) (philosopherId : String) : Option MemoryEntry :=
  (state.store philosopherId).getLast?

/-- `getHistoryFor` (src/lib/memory.ts). -/
def getHistoryFor (state : MemoryState) (philosopherId : String) : List MemoryEntry :=
  state.store philosopherId

/-! ## Turn scheduler state (useQueueOrchestrator.ts)

The hook's mutable refs are gathered into one state record:
`globalQueueRef` (`queue`, `pending`), `processedMessagesRef`,
`processingRef`, `globallyProcessingRef`, the `currentSpeaker` React
state, and `isPausedRef`.  All queue/lock mutation in the source is
synchronous; the only suspension point is the backend call inside
`processBatchedTasks`, so the synchronous prefix of `runQueue` (guards
and dequeue-and-acquire) and its `finally` block are modelled as two
atomic functions, `runQueueStart` and `endTurn`. -/

structure OrchestratorState where
  queue : List String
  pending : String → List ResponseTask
  processed : List String
  processing : String → Bool
  globallyProcessing : Bool
  currentSpeaker : Option String
  isPaused : Bool

/-- The initial state of the hook's refs. -/
def initState : OrchestratorState :=
  { queue := [], pending := fun _ => [], processed := [],
    processing := fun _ => false, globallyProcessing := false,
    currentSpeaker := none, isPaused := false }

/-- The task object built for one addressee.  The source id carries
`Date.now()` and a random suffix; neither is ever read by scheduling
logic, so the id is modelled deterministically. -/
def mkTask (addresseeId : String) (trigger : MessageEvent) : ResponseTask :=
  { id := "task-" ++ addresseeId ++ "-" ++ trigger.id,
    philosopherId := addresseeId, trigger := trigger }

/-- The body of the `addressees.forEach` loop of `enqueueWithPriority`:
skip unknown ids; append a task to the addressee's pending batch; append
the addressee to the queue tail only if not already present. -/
def enqueueStep (phils : List Philosopher) (trigger : MessageEvent)
    (s : OrchestratorState) (addresseeId : String) : OrchestratorState :=
  if philosopherMapHas phils addresseeId then
    let task := mkTask addresseeId trigger
    let s' := { s with pending := fun j =>
      if j = addresseeId then s.pending addresseeId ++ [task] else s.pending j }
    if addresseeId ∈ s'.queue then s'
    else { s' with queue := s'.queue ++ [addresseeId] }
  else s

/-- `enqueueWithPriority` (useQueueOrchestrator.ts lines 158-188), the
pure queue mutation.  The trailing `drainQueues()` is a separate step of
the transition relation below. -/
def enqueueWithPriority (phils : List Philosopher) (addressees : List String)
    (trigger : MessageEvent) (s : OrchestratorState) : OrchestratorState :=
  if addressees = [] then s
  else addressees.foldl (enqueueStep phils trigger) s

/-- The target list computed by `enqueueResponsesFromMessage` (lines
196-212): broadcast sentinel expands over `philosopherIds` minus the
speaker; an explicit list is filtered to known non-speaker ids, order
preserved.  Built by pushes, as the source's `forEach` does. -/
def computeTargets (phils : List Philosopher) (message : MessageEvent) : List String :=
  if "all" ∈ message.recipients then
    (philosopherIdsOf phils).foldl
      (fun ts i => if i ≠ message.speaker then ts ++ [i] else ts) []
  else
    message.recipients.foldl
      (fun ts r =>
        if r ≠ message.speaker ∧ philosopherMapHas phils r then ts ++ [r] else ts) []

/-- `enqueueResponsesFromMessage` (lines 190-218): no-op on an already
processed message id; otherwise mark processed, compute targets, and
delegate to `enqueueWithPriority` when targets are non-empty. -/
def enqueueResponsesFromMessage (phils : List Philosopher) (message : MessageEvent)
    (s : OrchestratorState) : OrchestratorState :=
  if message.id ∈ s.processed then s
  else
    let s' := { s with processed := s.processed ++ [message.id] }
    let targets := computeTargets phils message
    if targets = [] then s'
    else enqueueWithPriority phils targets message s'

/-- The synchronous prefix of `runQueue` (lines 244-262): the four
guards, then atomically dequeue the agent, take its whole batch, acquire
the global lock, set the re-entrancy flag and the speaker marker.
Returns `none` on any guard miss (state untouched), else the new state
and the owned batch. -/
def runQueueStart (philosopherId : String) (s : OrchestratorState) :
    Option (OrchestratorState × List ResponseTask) :=
  if s.isPaused then none
  else if s.globallyProcessing then none
  else if s.processing philosopherId then none
  else
    let tasks := s.pending philosopherId
    if tasks = [] then none
    else some
      ({ s with
          queue := s.queue.filter (fun i => i ≠ philosopherId),
          pending := fun j => if j = philosopherId then [] else s.pending j,
          globallyProcessing := true,
          processing := fun j => if j = philosopherId then true else s.processing j,
          currentSpeaker := some philosopherId },
        tasks)

/-- The `finally` block of `runQueue` (lines 265-271): clear the
re-entrancy flag, release the global lock, clear the speaker marker.
The trailing `drainQueues()` is a separate step of the relation below. -/
def endTurn (philosopherId : String) (s : OrchestratorState) : OrchestratorState :=
  { s with
    processing := fun j => if j = philosopherId then false else s.processing j,
    globallyProcessing := false,
    currentSpeaker := none }

/-- `drainQueues` (lines 222-232) attempts the head of the queue unless
paused; it mutates nothing itself. -/
def drainTarget (s : OrchestratorState) : Option String :=
  if s.isPaused then none else s.queue.head?

/-! ## Model-response parser (src/lib/parser.ts)

JavaScript strings are handled through their character lists.
`JSON.parse` is an external library call; it is a parameter
`jsonParse`, returning the fields of the parsed object that
`parseModelResponse` reads (`none` models both an absent key and a
parse that threw at the object level, `JsonValue.null` a JSON null;
`toField` carries the JSON key named to, a Lean keyword). -/

inductive JsonValue where
  | null
  | str (s : String)
  | arr (elems : List JsonValue)
  | other

structure JsonObj where
  final : Option JsonValue := none
  answer : Option JsonValue := none
  response : Option JsonValue := none
  surface : Option JsonValue := none
  reasoning : Option JsonValue := none
  analysis : Option JsonValue := none
  thinking : Option JsonValue := none
  addressees : Option JsonValue := none
  recipients : Option JsonValue := none
  toField : Option JsonValue := none

structure ParsedResponse where
  finalText : String
  reasoning : Option String
  addressees : Option (List String)
deriving DecidableEq

/-- JavaScript `??`-chains over object fields: `undefined` and `null`
both fall through. -/
def coalesce : List (Option JsonValue) → Option JsonValue
  | [] => none
  | o :: rest =>
      match o with
      | some JsonValue.null => coalesce rest
      | some v => some v
      | none => coalesce rest

/-- JavaScript `String.prototype.trim` on a character list. -/
def jsTrim (l : List Char) : List Char :=
  ((l.dropWhile Char.isWhitespace).reverse.dropWhile Char.isWhitespace).reverse

/-- First index of a character, `indexOf`; `none` models `-1`. -/
def charIndexOf (c : Char) (l : List Char) : Option Nat :=
  l.findIdx? (fun x => x = c)

/-- Last index of a character, `lastIndexOf`; `none` models `-1`. -/
def charLastIndexOf (c : Char) (l : List Char) : Option Nat :=
  match charIndexOf c l.reverse with
  | some i => some (l.length - 1 - i)
  | none => none

/-- Does `l` start with `pat`? -/
def headMatches : List Char → List Char → Bool
  | [], _ => true
  | _ :: _, [] => false
  | p :: ps, c :: cs => p = c && headMatches ps cs

/-- First index at which `pat` occurs in `l` (`String.prototype.indexOf`
with a string argument); `none` models `-1`. -/
def subIndexOfFrom (pat : List Char) : Nat → List Char → Option Nat
  | i, [] => if pat = [] then some i else none
  | i, c :: cs =>
      if headMatches pat (c :: cs) then some i else subIndexOfFrom pat (i + 1) cs

def subIndexOf (pat l : List Char) : Option Nat :=
  subIndexOfFrom pat 0 l

/-- `raw.replace(/\r\n/g, '\n')`. -/
def normalizeNewlines : List Char → List Char
  | [] => []
  | '\r' :: '\n' :: rest => '\n' :: normalizeNewlines rest
  | c :: rest => c :: normalizeNewlines rest

/-- The JSON-block stage of `parseModelResponse` (lines 31-62): extract
the text between the first `{` and last `}`, hand it to `JSON.parse`,
read the final/reasoning/addressee field chains with their runtime type
checks.  Yields the triple `(finalText, reasoning, addressees)` as of
line 62, with `finalText` defaulting to the trimmed raw text. -/
def parseJsonStage (jsonParse : String → Option JsonObj) (rawL : List Char) :
    List Char × Option (List Char) × Option (List String) :=
  let fallback := jsTrim rawL
  match charIndexOf '\x7b' rawL, charLastIndexOf '\x7d' rawL with
  | some firstBrace, some lastBrace =>
      if firstBrace < lastBrace then
        let candidate := (rawL.drop firstBrace).take (lastBrace + 1 - firstBrace)
        match jsonParse candidate.asString with
        | some parsed =>
            let maybeFinal :=
              coalesce [parsed.final, parsed.answer, parsed.response, parsed.surface]
            let maybeReasoning :=
              coalesce [parsed.reasoning, parsed.analysis, parsed.thinking]
            let maybeAddressees :=
              coalesce [parsed.addressees, parsed.recipients, parsed.toField]
            let finalText :=
              match maybeFinal with
              | some (JsonValue.str f) =>
                  if jsTrim f.toList = [] then fallback else jsTrim f.toList
              | _ => fallback
            let reasoning :=
              match maybeReasoning with
              | some (JsonValue.str r) =>
                  if jsTrim r.toList = [] then none else some (jsTrim r.toList)
              | _ => none
            let addressees :=
              match maybeAddressees with
              | some (JsonValue.arr elems) =>
                  if elems.isEmpty then none
                  else
                    let filtered := elems.filterMap (fun v =>
                      match v with
                      | JsonValue.str a =>
                          if jsTrim a.toList = [] then none
                          else some (jsTrim a.toList).asString
                      | _ => none)
                    if filtered = [] then none else some filtered
              | _ => none
            (finalText, reasoning, addressees)
        | none => (fallback, none, none)
      else (fallback, none, none)
  | _, _ => (fallback, none, none)

/-- `parseModelResponse` (src/lib/parser.ts): the JSON stage, then —
whenever that stage produced no reasoning — the double-newline fallback
(lines 64-76), which overwrites `finalText` when both sides of the first
blank-line separator are non-empty after trimming. -/
def parseModelResponse (jsonParse : String → Option JsonObj) (raw : String) :
    ParsedResponse :=
  let rawL := raw.toList
  let stage1 := parseJsonStage jsonParse rawL
  let finalText1 := stage1.1
  let reasoning1 := stage1.2.1
  let addressees1 := stage1.2.2
  match reasoning1 with
  | some r => { finalText := finalText1.asString, reasoning := some r.asString,
                addressees := addressees1 }
  | none =>
      let normalized := normalizeNewlines rawL
      match subIndexOf ['\n', '\n'] normalized with
      | some separatorIndex =>
          let leading := jsTrim (normalized.take separatorIndex)
          let trailing := jsTrim (normalized.drop (separatorIndex + 2))
          if leading ≠ [] ∧ trailing ≠ [] then
            { finalText := trailing.asString, reasoning := some leading.asString,
              addressees := addressees1 }
          else
            { finalText := finalText1.asString, reasoning := none,
              addressees := addressees1 }
      | none =>
          { finalText := finalText1.asString, reasoning := none,
            addressees := addressees1 }

/-! ## Batched task processing (useQueueOrchestrator.ts lines 281-451)

The backend call `sendMessageToBackend` is the only suspension point and
an external collaborator: its outcome is the parameter
`backend : Option String` (`some raw` for a fulfilled call, `none` for a
rejection).  `Date.now()`-derived reply/snapshot identifiers and
timestamps are the parameters `replyId` and `nowTs`.  Log lines are
recorded without their wall-clock prefix. -/

inductive SinkEvent where
  | messageCreated (message : MessageEvent)
  | snapshotCreated
  | memoryUpdate
  | eventLog (line : String)
  | backendError (philosopherId : String)
deriving DecidableEq

/-- `new Map(tasks.map(t => [t.trigger.id, t.trigger]))`: keys keep
first-insertion order, a repeated key overwrites the value. -/
def triggerMapInsert (m : List (String × MessageEvent)) (k : String)
    (v : MessageEvent) : List (String × MessageEvent) :=
  if m.any (fun p => p.1 = k) then m.map (fun p => if p.1 = k then (k, v) else p)
  else m ++ [(k, v)]

/-- `uniqueTriggers` (lines 291-293): the tasks' triggers deduplicated by
message id, first-seen key order, last-seen value. -/
def uniqueByTriggerId (tasks : List ResponseTask) : List MessageEvent :=
  (tasks.foldl (fun m t => triggerMapInsert m t.trigger.id t.trigger) []).map
    (fun p => p.2)

/-- The composite stimulus text (lines 296-298). -/
def triggerTextOf (uniqueTriggers : List MessageEvent) : String :=
  String.intercalate "\n"
    (uniqueTriggers.map (fun t => "[" ++ t.speaker ++ "]: " ++ t.surface))

/-- The in-batch memory store step (lines 371-398): for each literal
recipient of the reply, append the derived entry to that bucket and trim
only when the bucket exceeds `max`.  Unlike `pushMemoryEntry`, no
broadcast bucket is added and no deduplication is performed. -/
def storeReplyInMemory (mem : MemoryState) (message : MessageEvent) : MemoryState :=
  { mem with
    store := message.recipients.foldl
      (fun st recipientId =>
        let entry := entryOfMessage message
        let newList := st recipientId ++ [entry]
        let trimmed :=
          if newList.length > mem.max then sliceLast mem.max newList else newList
        fun k => if k = recipientId then trimmed else st k)
      mem.store }

/-- `processBatchedTasks` (lines 281-451).  Returns the scheduler state,
the memory state, and the emitted sink events, in emission order. -/
def processBatchedTasks (phils : List Philosopher) (currentPhase : String)
    (jsonParse : String → Option JsonObj) (backend : Option String)
    (replyId nowTs : String) (tasks : List ResponseTask)
    (s : OrchestratorState) (mem : MemoryState) :
    OrchestratorState × MemoryState × List SinkEvent :=
  match tasks.head? with
  | none => (s, mem, [])
  | some firstTask =>
      match philosopherMapGet phils firstTask.philosopherId with
      | none => (s, mem, [])
      | some philosopher =>
          let uniqueTriggers := uniqueByTriggerId tasks
          match uniqueTriggers.getLast? with
          | none => (s, mem, [])
          | some _lastTrigger =>
              let logs := [SinkEvent.eventLog ("routing -> " ++ philosopher.name),
                           SinkEvent.eventLog "searching quotes..."]
              match backend with
              | none =>
                  (s, mem, logs ++
                    [SinkEvent.eventLog ("backend error (" ++ philosopher.name ++ ")"),
                     SinkEvent.backendError philosopher.id])
              | some raw =>
                  let parsed := parseModelResponse jsonParse raw
                  let replyRecipients :=
                    match parsed.addressees with
                    | some addressees =>
                        if addressees.length > 0 then addressees ++ ["moderator"]
                        else dedupKeepFirst (uniqueTriggers.map (fun t => t.speaker)) []
                              ++ ["moderator"]
                    | none =>
                        dedupKeepFirst (uniqueTriggers.map (fun t => t.speaker)) []
                          ++ ["moderator"]
                  let replyMessage : MessageEvent :=
                    { id := replyId, speaker := philosopher.id,
                      recipients := replyRecipients, surface := parsed.finalText,
                      timestamp := nowTs, phase := currentPhase,
                      insight := parsed.reasoning }
                  let mem' := storeReplyInMemory mem replyMessage
                  let evts := logs ++
                    [SinkEvent.messageCreated replyMessage,
                     SinkEvent.eventLog (philosopher.name ++ " replied"),
                     SinkEvent.memoryUpdate]
                  match uniqueTriggers.head? with
                  | none => (s, mem', evts)
                  | some _firstUniqueTrigger =>
                      (enqueueResponsesFromMessage phils replyMessage s, mem',
                        evts ++ [SinkEvent.snapshotCreated])

/-- One full turn of `runQueue` for the given agent, under the given
backend outcome: the guarded synchronous prefix, `processBatchedTasks`,
and the `finally` block.  A guard miss is a silent no-op.  The trailing
`drainQueues()` only attempts `runQueueStart` on the new queue head, so
it is a separate step of the transition relation below. -/
def runTurnWith (phils : List Philosopher) (currentPhase : String)
    (jsonParse : String → Option JsonObj) (backend : Option String)
    (replyId nowTs : String) (philosopherId : String)
    (s : OrchestratorState) (mem : MemoryState) :
    OrchestratorState × MemoryState × List SinkEvent :=
  match runQueueStart philosopherId s with
  | none => (s, mem, [])
  | some (s₁, tasks) =>
      let r := processBatchedTasks phils currentPhase jsonParse backend
        replyId nowTs tasks s₁ mem
      (endTurn philosopherId r.1, r.2.1, r.2.2)

/-! ## Transition relation

Interleavings of the scheduler's synchronous mutations, as the
single-threaded host can produce them: enqueue calls, the atomic
dequeue-and-acquire prefix of `runQueue`, its `finally` release, and
pause toggling.  The awaited backend call sits between `turnStart` and
`turnEnd`; cascade re-entry (`processBatchedTasks` calling
`enqueueResponsesFromMessage`) and moderator input are `enqueue` steps
in between. -/

inductive Step (phils : List Philosopher) :
    OrchestratorState → OrchestratorState → Prop where
  | enqueuePrio (addressees : List String) (trigger : MessageEvent)
      (s : OrchestratorState) :
      Step phils s (enqueueWithPriority phils addressees trigger s)
  | enqueueMsg (message : MessageEvent) (s : OrchestratorState) :
      Step phils s (enqueueResponsesFromMessage phils message s)
  | turnStart (philosopherId : String) (s s' : OrchestratorState)
      (tasks : List ResponseTask)
      (h : runQueueStart philosopherId s = some (s', tasks)) :
      Step phils s s'
  | turnEnd (philosopherId : String) (s : OrchestratorState)
      (h : s.currentSpeaker = some philosopherId) :
      Step phils s (endTurn philosopherId s)
  | setPaused (b : Bool) (s : OrchestratorState) :
      Step phils s { s with isPaused := b }

/-- States the scheduler can reach from its initial state. -/
def Reachable (phils : List Philosopher) (s : OrchestratorState) : Prop :=
  Relation.ReflTransGen (Step phils) initState s

/-- The lock discipline: a set re-entrancy flag always belongs to the
current speaker, and a current speaker implies the global lock is held. -/
def LockInv (s : OrchestratorState) : Prop :=
  (∀ i, s.processing i = true → s.currentSpeaker = some i) ∧
  (s.currentSpeaker.isSome → s.globallyProcessing = true)

/-- The queue/pending coherence invariant of the claims: no duplicate
queue entries, and queue membership coincides with a non-empty pending
batch. -/
def QueueInv (s : OrchestratorState) : Prop :=
  s.queue.Nodup ∧ ∀ i, i ∈ s.queue ↔ s.pending i ≠ []

/-! ## Scheduler call sequences

An arbitrary interleaving of scheduler entry points, used to express
idempotence "regardless of order relative to other calls". -/

inductive SchedOp where
  | prio (addressees : List String) (trigger : MessageEvent)
  | fromMsg (message : MessageEvent)
  | turnStartOp (philosopherId : String)
  | turnEndOp (philosopherId : String)
  | pauseOp (b : Bool)

def applySchedOp (phils : List Philosopher) (s : OrchestratorState) :
    SchedOp → OrchestratorState
  | SchedOp.prio addressees trigger => enqueueWithPriority phils addressees trigger s
  | SchedOp.fromMsg message => enqueueResponsesFromMessage phils message s
  | SchedOp.turnStartOp philosopherId =>
      match runQueueStart philosopherId s with
      | some p => p.1
      | none => s
  | SchedOp.turnEndOp philosopherId => endTurn philosopherId s
  | SchedOp.pauseOp b => { s with isPaused := b }

def applySchedOps (phils : List Philosopher) (s : OrchestratorState)
    (ops : List SchedOp) : OrchestratorState :=
  ops.foldl (applySchedOp phils) s

/-- Position of the first occurrence of `x` (JS `indexOf` on the queue). -/
def posOf (x : String) : List String → Nat
  | [] => 0
  | y :: ys => if y = x then 0 else posOf x ys + 1

def isBackendErrorEvent : SinkEvent → Bool
  | SinkEvent.backendError _ => true
  | _ => false

/-! ## Concrete fixtures used by the witnesses -/

def mkMsg (i speaker : String) (recipients : List String) : MessageEvent :=
  { id := i, speaker := speaker, recipients := recipients,
    surface := "text", timestamp := "t", phase := "introduce" }

def philsAB : List Philosopher := [{ id := "a", name := "A" }, { id := "b", name := "B" }]

def philsABC : List Philosopher :=
  [{ id := "a", name := "A" }, { id := "b", name := "B" }, { id := "c", name := "C" }]

def mMod : MessageEvent := mkMsg "m0" "moderator" ["a"]

def mAB : MessageEvent := mkMsg "m-ab" "moderator" ["a", "b"]

/-- State after fanning `mMod` out from the initial state. -/
def c1s1 : OrchestratorState := enqueueResponsesFromMessage philsAB mMod initState

/-- The locked state produced by agent a's turn starting from `c1s1`. -/
def c1s2 : OrchestratorState :=
  match runQueueStart "a" c1s1 with
  | some p => p.1
  | none => c1s1

def c1tasks : List ResponseTask :=
  match runQueueStart "a" c1s1 with
  | some p => p.2
  | none => []

/-- A two-agent queued state (agents a and b each with one pending task). -/
def c2s0 : OrchestratorState :=
  { queue := ["a", "b"],
    pending := fun j =>
      if j = "a" then [mkTask "a" mAB]
      else if j = "b" then [mkTask "b" mAB] else [],
    processed := ["m-ab"], processing := fun _ => false,
    globallyProcessing := false, currentSpeaker := none, isPaused := false }

def c2s1 : OrchestratorState :=
  match runQueueStart "a" c2s0 with
  | some p => p.1
  | none => c2s0

def c2tasks : List ResponseTask :=
  match runQueueStart "a" c2s0 with
  | some p => p.2
  | none => []

def mAll : MessageEvent := mkMsg "m-all" "a" ["all"]

def mGhost : MessageEvent := mkMsg "m-ghost" "a" ["ghost"]

def replyKongzi : MessageEvent := mkMsg "reply-1" "laozi" ["kongzi", "moderator"]

def mEmptyRec : MessageEvent := mkMsg "m-c8" "moderator" []

/-- The agent table after the agent ghost becomes known. -/
def philsABG : List Philosopher :=
  [{ id := "a", name := "A" }, { id := "b", name := "B" },
   { id := "ghost", name := "G" }]

def c10raw : String := "\x7b\"final\": \"json says\"\x7d\n\nactual reply"

def c10obj : JsonObj := { final := some (JsonValue.str "json says") }

def c10jsonParse : String → Option JsonObj :=
  fun s => if s = "\x7b\"final\": \"json says\"\x7d" then some c10obj else none

/-! ## Helper lemmas -/

theorem enqueueStep_ctrl (phils : List Philosopher) (t : MessageEvent)
    (s : OrchestratorState) (a : String) :
    (enqueueStep phils t s a).processed = s.processed ∧
    (enqueueStep phils t s a).processing = s.processing ∧
    (enqueueStep phils t s a).globallyProcessing = s.globallyProcessing ∧
    (enqueueStep phils t s a).currentSpeaker = s.currentSpeaker ∧
    (enqueueStep phils t s a).isPaused = s.isPaused := by
  unfold enqueueStep
  split
  · dsimp only
    split
    · exact ⟨rfl, rfl, rfl, rfl, rfl⟩
    · exact ⟨rfl, rfl, rfl, rfl, rfl⟩
  · exact ⟨rfl, rfl, rfl, rfl, rfl⟩

theorem foldl_enqueueStep_ctrl (phils : List Philosopher) (t : MessageEvent) :
    ∀ (A : List String) (s : OrchestratorState),
    ((A.foldl (enqueueStep phils t) s).processed = s.processed ∧
     (A.foldl (enqueueStep phils t) s).processing = s.processing ∧
     (A.foldl (enqueueStep phils t) s).globallyProcessing = s.globallyProcessing ∧
     (A.foldl (enqueueStep phils t) s).currentSpeaker = s.currentSpeaker ∧
     (A.foldl (enqueueStep phils t) s).isPaused = s.isPaused) := by
  intro A
  induction A with
  | nil => exact fun s => ⟨rfl, rfl, rfl, rfl, rfl⟩
  | cons a rest ih =>
      intro s
      have h1 := enqueueStep_ctrl phils t s a
      have h2 := ih (enqueueStep phils t s a)
      simp only [List.foldl_cons]
      exact ⟨h2.1.trans h1.1, h2.2.1.trans h1.2.1, h2.2.2.1.trans h1.2.2.1,
        h2.2.2.2.1.trans h1.2.2.2.1, h2.2.2.2.2.trans h1.2.2.2.2⟩

theorem enqueueWithPriority_ctrl (phils : List Philosopher) (A : List String)
    (t : MessageEvent) (s : OrchestratorState) :
    ((enqueueWithPriority phils A t s).processed = s.processed ∧
     (enqueueWithPriority phils A t s).processing = s.processing ∧
     (enqueueWithPriority phils A t s).globallyProcessing = s.globallyProcessing ∧
     (enqueueWithPriority phils A t s).currentSpeaker = s.currentSpeaker ∧
     (enqueueWithPriority phils A t s).isPaused = s.isPaused) := by
  unfold enqueueWithPriority
  split
  · exact ⟨rfl, rfl, rfl, rfl, rfl⟩
  · exact foldl_enqueueStep_ctrl phils t A s

theorem enqueueMsg_ctrl (phils : List Philosopher) (m : MessageEvent)
    (s : OrchestratorState) :
    ((enqueueResponsesFromMessage phils m s).processing = s.processing ∧
     (enqueueResponsesFromMessage phils m s).globallyProcessing = s.globallyProcessing ∧
     (enqueueResponsesFromMessage phils m s).currentSpeaker = s.currentSpeaker ∧
     (enqueueResponsesFromMessage phils m s).isPaused = s.isPaused) := by
  unfold enqueueResponsesFromMessage
  split
  · exact ⟨rfl, rfl, rfl, rfl⟩
  · dsimp only
    split
    · exact ⟨rfl, rfl, rfl, rfl⟩
    · have h := enqueueWithPriority_ctrl phils (computeTargets phils m) m
        { s with processed := s.processed ++ [m.id] }
      exact ⟨h.2.1, h.2.2.1, h.2.2.2.1, h.2.2.2.2⟩

theorem runQueueStart_eq_some {philosopherId : String} {s s' : OrchestratorState}
    {tasks : List ResponseTask}
    (h : runQueueStart philosopherId s = some (s', tasks)) :
    s.isPaused = false ∧ s.globallyProcessing = false ∧
    s.processing philosopherId = false ∧ s.pending philosopherId ≠ [] ∧
    tasks = s.pending philosopherId ∧
    s' = { s with
      queue := s.queue.filter (fun i => i ≠ philosopherId),
      pending := fun j => if j = philosopherId then [] else s.pending j,
      globallyProcessing := true,
      processing := fun j => if j = philosopherId then true else s.processing j,
      currentSpeaker := some philosopherId } := by
  unfold runQueueStart at h
  by_cases h1 : s.isPaused = true
  · simp [h1] at h
  · simp only [Bool.not_eq_true] at h1
    simp only [h1, Bool.false_eq_true, if_false] at h
    by_cases h2 : s.globallyProcessing = true
    · simp [h2] at h
    · simp only [Bool.not_eq_true] at h2
      simp only [h2, Bool.false_eq_true, if_false] at h
      by_cases h3 : s.processing philosopherId = true
      · simp [h3] at h
      · simp only [Bool.not_eq_true] at h3
        simp only [h3, Bool.false_eq_true, if_false] at h
        by_cases h4 : s.pending philosopherId = []
        · simp [h4] at h
        · simp only [h4, if_false, Option.some.injEq, Prod.mk.injEq] at h
          refine ⟨h1, h2, h3, h4, h.2.symm, ?_⟩
          rw [h1]
          exact h.1.symm

theorem runQueueStart_none_of_locked (philosopherId : String)
    (s : OrchestratorState) (h : s.globallyProcessing = true) :
    runQueueStart philosopherId s = none := by
  unfold runQueueStart
  by_cases h1 : s.isPaused = true
  · simp [h1]
  · simp only [Bool.not_eq_true] at h1
    simp [h1, h]

theorem lockInv_init : LockInv initState := by
  constructor
  · intro i h
    simp [initState] at h
  · intro h
    simp [initState] at h

theorem lockInv_step {phils : List Philosopher} {s s' : OrchestratorState}
    (hinv : LockInv s) (hstep : Step phils s s') : LockInv s' := by
  cases hstep with
  | enqueuePrio addressees trigger s =>
      have h := enqueueWithPriority_ctrl phils addressees trigger s
      exact ⟨fun i hi => by rw [h.2.2.2.1]; exact hinv.1 i (by rwa [h.2.1] at hi),
        fun hi => by rw [h.2.2.1]; exact hinv.2 (by rwa [h.2.2.2.1] at hi)⟩
  | enqueueMsg message s =>
      have h := enqueueMsg_ctrl phils message s
      exact ⟨fun i hi => by rw [h.2.2.1]; exact hinv.1 i (by rwa [h.1] at hi),
        fun hi => by rw [h.2.1]; exact hinv.2 (by rwa [h.2.2.1] at hi)⟩
  | turnStart philosopherId s s' tasks h =>
      obtain ⟨hp, hg, hpr, hne, hts, hs'⟩ := runQueueStart_eq_some h
      subst hs'
      constructor
      · intro i hi
        by_cases hip : i = philosopherId
        · simp [hip]
        · simp only [if_neg hip] at hi
          have := hinv.1 i hi
          have hlock := hinv.2 (by simp [this])
          rw [hlock] at hg
          cases hg
      · intro _
        rfl
  | turnEnd philosopherId s h =>
      constructor
      · intro i hi
        unfold endTurn at hi
        by_cases hip : i = philosopherId
        · simp [hip] at hi
        · simp only [if_neg hip] at hi
          have := hinv.1 i hi
          rw [h] at this
          cases this
          exact absurd rfl hip
      · intro hi
        simp [endTurn] at hi
  | setPaused b s =>
      exact ⟨fun i hi => hinv.1 i hi, fun hi => hinv.2 hi⟩

theorem reachable_lockInv {phils : List Philosopher} {s : OrchestratorState}
    (h : Reachable phils s) : LockInv s := by
  induction h with
  | refl => exact lockInv_init
  | tail _hsteps hstep ih => exact lockInv_step ih hstep

theorem queueInv_enqueueStep {s : OrchestratorState} (phils : List Philosopher)
    (t : MessageEvent) (a : String) (hinv : QueueInv s) :
    QueueInv (enqueueStep phils t s a) := by
  unfold enqueueStep
  split
  · dsimp only
    split
    · next hmem =>
        refine ⟨hinv.1, fun i => ?_⟩
        by_cases hia : i = a
        · subst hia
          simp only
          constructor
          · intro _
            simp [if_pos rfl]
          · intro _
            exact hmem
        · simpa [if_neg hia] using hinv.2 i
    · next hmem =>
        constructor
        · simp only [List.nodup_append, List.nodup_cons, List.not_mem_nil,
            not_false_iff, List.nodup_nil, and_true, List.disjoint_singleton]
          exact ⟨hinv.1, trivial, hmem⟩
        · intro i
          by_cases hia : i = a
          · subst hia
            simp [if_pos rfl, List.mem_append]
          · simp only [List.mem_append, List.mem_singleton, hia, or_false,
              if_neg hia]
            exact hinv.2 i
  · exact hinv

theorem queueInv_foldl_enqueueStep (phils : List Philosopher) (t : MessageEvent) :
    ∀ (A : List String) (s : OrchestratorState), QueueInv s →
      QueueInv (A.foldl (enqueueStep phils t) s) := by
  intro A
  induction A with
  | nil => exact fun s h => h
  | cons a rest ih =>
      intro s h
      exact ih (enqueueStep phils t s a) (queueInv_enqueueStep phils t a h)

theorem queueInv_enqueueWithPriority (phils : List Philosopher) (A : List String)
    (t : MessageEvent) {s : OrchestratorState} (hinv : QueueInv s) :
    QueueInv (enqueueWithPriority phils A t s) := by
  unfold enqueueWithPriority
  split
  · exact hinv
  · exact queueInv_foldl_enqueueStep phils t A s hinv

theorem queueInv_runQueueStart {philosopherId : String} {s s' : OrchestratorState}
    {tasks : List ResponseTask} (hinv : QueueInv s)
    (h : runQueueStart philosopherId s = some (s', tasks)) : QueueInv s' := by
  obtain ⟨_, _, _, _, _, hs'⟩ := runQueueStart_eq_some h
  subst hs'
  constructor
  · exact hinv.1.filter _
  · intro i
    by_cases hip : i = philosopherId
    · subst hip
      simp [List.mem_filter]
    · simpa [List.mem_filter, if_neg hip, hip] using hinv.2 i

theorem queueInv_init : QueueInv initState := by
  refine ⟨List.nodup_nil, fun i => ?_⟩
  simp [initState]

/-- C1: At most one agent holds the ExecutionLock at any instant: in any
reachable scheduler state whose global lock is held, every call to
`runQueue` fails its guards (returns without dequeuing or starting a
batch), and any two set re-entrancy flags belong to the same agent, so at
most one agent is Active. -/
theorem c1_global_lock_exclusion (phils : List Philosopher)
    (s : OrchestratorState) (philosopherId i₁ i₂ : String)
    (hR : Reachable phils s) (hLock : s.globallyProcessing = true)
    (h₁ : s.processing i₁ = true) (h₂ : s.processing i₂ = true) :
    runQueueStart philosopherId s = none ∧ i₁ = i₂ := by
  have hinv := reachable_lockInv hR
  refine ⟨runQueueStart_none_of_locked _ _ hLock, ?_⟩
  have e₁ := hinv.1 i₁ h₁
  have e₂ := hinv.1 i₂ h₂
  rw [e₁] at e₂
  exact Option.some.inj e₂

/-- Witness for C1: a concrete reachable locked state (agent a speaking
after the moderator message `mMod` was fanned out), in which `runQueue`
for agent b fails its guards. -/
theorem c1_global_lock_exclusion_witness :
    runQueueStart "b" c1s2 = none ∧ "a" = "a" := by
  have step1 : Step philsAB initState c1s1 := Step.enqueueMsg mMod initState
  have hrun : runQueueStart "a" c1s1 = some (c1s2, c1tasks) := rfl
  have step2 : Step philsAB c1s1 c1s2 := Step.turnStart "a" c1s1 c1s2 c1tasks hrun
  have hR : Reachable philsAB c1s2 :=
    Relation.ReflTransGen.tail
      (Relation.ReflTransGen.tail Relation.ReflTransGen.refl step1) step2
  exact c1_global_lock_exclusion philsAB c1s2 "b" "a" "a" hR rfl rfl rfl

/-- C3: The QueueState invariant (no duplicate ids in `order`; an id is
in `order` iff its pending batch is non-empty) holds initially, is
preserved by every `enqueueWithPriority` call, and is preserved by the
atomic dequeue-for-turn step of `runQueue`. -/
theorem c3_queue_state_invariant (phils : List Philosopher)
    (addressees : List String) (trigger : MessageEvent) (philosopherId : String)
    (s s' : OrchestratorState) (tasks : List ResponseTask) (hinv : QueueInv s)
    (hrun : runQueueStart philosopherId s = some (s', tasks)) :
    QueueInv initState ∧
    QueueInv (enqueueWithPriority phils addressees trigger s) ∧
    QueueInv s' :=
  ⟨queueInv_init, queueInv_enqueueWithPriority phils addressees trigger hinv,
    queueInv_runQueueStart hinv hrun⟩

/-- Witness for C3 at the concrete two-agent queued state `c2s0`. -/
theorem c3_queue_state_invariant_witness :
    QueueInv initState ∧
    QueueInv (enqueueWithPriority philsAB ["a", "b"] mAB c2s0) ∧
    QueueInv c2s1 := by
  have hinv : QueueInv c2s0 := by
    refine ⟨by decide, fun i => ?_⟩
    by_cases h1 : i = "a"
    · subst h1
      simp [c2s0, mkTask]
    · by_cases h2 : i = "b"
      · subst h2
        simp [c2s0, mkTask]
      · simp [c2s0, h1, h2]
  exact c3_queue_state_invariant philsAB ["a", "b"] mAB "a" c2s0 c2s1 c2tasks
    hinv rfl

theorem mem_processed_enqueueMsg (phils : List Philosopher) (m : MessageEvent)
    (s : OrchestratorState) :
    m.id ∈ (enqueueResponsesFromMessage phils m s).processed := by
  unfold enqueueResponsesFromMessage
  split
  · assumption
  · dsimp only
    split
    · simp
    · rw [(enqueueWithPriority_ctrl phils (computeTargets phils m) m _).1]
      simp

theorem processed_mono_op (phils : List Philosopher) (s : OrchestratorState)
    (op : SchedOp) (x : String) (hx : x ∈ s.processed) :
    x ∈ (applySchedOp phils s op).processed := by
  cases op with
  | prio addressees trigger =>
      simp only [applySchedOp]
      rw [(enqueueWithPriority_ctrl phils addressees trigger s).1]
      exact hx
  | fromMsg message =>
      simp only [applySchedOp]
      unfold enqueueResponsesFromMessage
      split
      · exact hx
      · dsimp only
        split
        · simp [hx]
        · rw [(enqueueWithPriority_ctrl phils (computeTargets phils message)
            message _).1]
          simp [hx]
  | turnStartOp philosopherId =>
      simp only [applySchedOp]
      cases hm : runQueueStart philosopherId s with
      | none => exact hx
      | some p =>
          dsimp only
          have h := runQueueStart_eq_some (show runQueueStart philosopherId s
            = some (p.1, p.2) from by rw [hm])
          rw [h.2.2.2.2.2]
          exact hx
  | turnEndOp philosopherId =>
      simp only [applySchedOp]
      exact hx
  | pauseOp b =>
      simp only [applySchedOp]
      exact hx

theorem processed_mono_ops (phils : List Philosopher) :
    ∀ (ops : List SchedOp) (s : OrchestratorState) (x : String),
    x ∈ s.processed → x ∈ (applySchedOps phils s ops).processed := by
  intro ops
  induction ops with
  | nil => exact fun s x hx => hx
  | cons op rest ih =>
      intro s x hx
      exact ih (applySchedOp phils s op) x (processed_mono_op phils s op x hx)

theorem enqueueMsg_noop_of_processed (phils : List Philosopher)
    (m : MessageEvent) (s : OrchestratorState) (h : m.id ∈ s.processed) :
    enqueueResponsesFromMessage phils m s = s := by
  unfold enqueueResponsesFromMessage
  rw [if_pos h]

/-- C5: `enqueueFromMessage` is idempotent on message id: after a message
has been enqueued once, a second call with the same id — regardless of
any scheduler calls (enqueues, turn starts/ends, pause toggles) in
between — is a no-op, leaving queue, pending map and processed set
unchanged. -/
theorem c5_enqueueFromMessage_idempotent (phils : List Philosopher)
    (ops : List SchedOp) (m m' : MessageEvent) (s : OrchestratorState)
    (hid : m'.id = m.id) :
    enqueueResponsesFromMessage phils m'
        (applySchedOps phils (enqueueResponsesFromMessage phils m s) ops)
      = applySchedOps phils (enqueueResponsesFromMessage phils m s) ops := by
  apply enqueueMsg_noop_of_processed
  rw [hid]
  exact processed_mono_ops phils ops _ m.id (mem_processed_enqueueMsg phils m s)

/-- Witness for C5: the moderator message `mMod` enqueued twice around an
intervening enqueue of `mAB`. -/
theorem c5_enqueueFromMessage_idempotent_witness :
    enqueueResponsesFromMessage philsAB mMod
        (applySchedOps philsAB (enqueueResponsesFromMessage philsAB mMod initState)
          [SchedOp.fromMsg mAB])
      = applySchedOps philsAB (enqueueResponsesFromMessage philsAB mMod initState)
          [SchedOp.fromMsg mAB] :=
  c5_enqueueFromMessage_idempotent philsAB [SchedOp.fromMsg mAB] mMod mMod
    initState rfl

/-- C9 (implicit): `enqueueFromMessage` marks the message id processed
before computing targets, so a call whose computed target list is empty
creates no tasks and leaves queue and pending untouched while still
recording the id; every later call with that id — even against an agent
table where the previously missing recipients are known — is a no-op. -/
theorem c9_processed_before_targets (phils phils' : List Philosopher)
    (m m' : MessageEvent) (s : OrchestratorState) (hid : m'.id = m.id)
    (hempty : computeTargets phils m = []) (hnew : m.id ∉ s.processed) :
    (enqueueResponsesFromMessage phils m s).queue = s.queue ∧
    (enqueueResponsesFromMessage phils m s).pending = s.pending ∧
    (enqueueResponsesFromMessage phils m s).processed = s.processed ++ [m.id] ∧
    enqueueResponsesFromMessage phils' m' (enqueueResponsesFromMessage phils m s)
      = enqueueResponsesFromMessage phils m s := by
  have h1 : enqueueResponsesFromMessage phils m s
      = { s with processed := s.processed ++ [m.id] } := by
    unfold enqueueResponsesFromMessage
    rw [if_neg hnew]
    dsimp only
    rw [if_pos hempty]
  refine ⟨by rw [h1], by rw [h1], by rw [h1], ?_⟩
  apply enqueueMsg_noop_of_processed
  rw [hid, h1]
  simp

/-- Witness for C9: `mGhost` addresses only the unknown agent ghost; the
second call uses the table `philsABG` in which ghost is known. -/
theorem c9_processed_before_targets_witness :
    (enqueueResponsesFromMessage philsAB mGhost initState).queue = initState.queue ∧
    (enqueueResponsesFromMessage philsAB mGhost initState).pending = initState.pending ∧
    (enqueueResponsesFromMessage philsAB mGhost initState).processed
      = initState.processed ++ [mGhost.id] ∧
    enqueueResponsesFromMessage philsABG mGhost
        (enqueueResponsesFromMessage philsAB mGhost initState)
      = enqueueResponsesFromMessage philsAB mGhost initState :=
  c9_processed_before_targets philsAB philsABG mGhost mGhost initState rfl
    (by decide) (by decide)

theorem foldl_push_filter (p : String → Prop) [DecidablePred p] :
    ∀ (l acc : List String),
      l.foldl (fun ts i => if p i then ts ++ [i] else ts) acc
        = acc ++ l.filter (fun i => decide (p i)) := by
  intro l
  induction l with
  | nil => intro acc; simp
  | cons a rest ih =>
      intro acc
      by_cases hp : p a
      · simp [hp, List.foldl_cons, List.filter_cons, ih]
      · simp [hp, List.foldl_cons, List.filter_cons, ih]

/-- C6: Fan-out target lists: a message whose recipients contain the
broadcast sentinel targets all known agents except the speaker in
canonical agent-table order; otherwise the explicit recipient list is
filtered to known non-speaker agents with its order preserved. -/
theorem c6_fanout_target_lists (phils : List Philosopher) (m : MessageEvent) :
    ("all" ∈ m.recipients →
      computeTargets phils m
        = (philosopherIdsOf phils).filter (fun i => i ≠ m.speaker)) ∧
    ("all" ∉ m.recipients →
      computeTargets phils m
        = m.recipients.filter
            (fun r => decide (r ≠ m.speaker ∧ philosopherMapHas phils r = true))) := by
  constructor
  · intro hall
    unfold computeTargets
    rw [if_pos hall]
    rw [foldl_push_filter (fun i => i ≠ m.speaker)]
    simp
  · intro hnall
    unfold computeTargets
    rw [if_neg hnall]
    rw [foldl_push_filter (fun r => r ≠ m.speaker ∧ philosopherMapHas phils r)]
    simp

/-- Witness for C6: broadcast from agent a over the table a, b, c. -/
theorem c6_fanout_target_lists_witness :
    computeTargets philsABC mAll
      = (philosopherIdsOf philsABC).filter (fun i => i ≠ mAll.speaker) :=
  (c6_fanout_target_lists philsABC mAll).1 (by decide)

theorem enqueueStep_pending (phils : List Philosopher) (t : MessageEvent)
    (s : OrchestratorState) (a X : String) :
    (enqueueStep phils t s a).pending X
      = if philosopherMapHas phils a = true ∧ X = a
        then s.pending X ++ [mkTask a t] else s.pending X := by
  unfold enqueueStep
  by_cases hval : philosopherMapHas phils a = true
  · rw [if_pos hval]
    dsimp only
    by_cases hXa : X = a
    · subst hXa
      split <;> simp [hval]
    · split <;> simp [hXa]
  · rw [if_neg hval, if_neg (fun h => hval h.1)]

theorem foldl_pending_count (phils : List Philosopher) (t : MessageEvent)
    (X : String) :
    ∀ (A : List String) (s : OrchestratorState),
      ((A.foldl (enqueueStep phils t) s).pending X).length
        = (s.pending X).length
          + (if philosopherMapHas phils X = true then A.count X else 0) := by
  intro A
  induction A with
  | nil => intro s; simp
  | cons a rest ih =>
      intro s
      simp only [List.foldl_cons]
      rw [ih, enqueueStep_pending]
      by_cases hXa : X = a
      · subst hXa
        by_cases hval : philosopherMapHas phils X = true
        · simp only [hval, true_and, if_pos rfl, List.count_cons_self, if_true,
            List.length_append, List.length_singleton]
          omega
        · simp [hval]
      · rw [if_neg (fun h => hXa h.2)]
        by_cases hval : philosopherMapHas phils X = true
        · simp [hval, List.count_cons, hXa]
        · simp [hval]

theorem foldl_queue_extension (phils : List Philosopher) (t : MessageEvent) :
    ∀ (A : List String) (s : OrchestratorState),
      ∃ ex, (A.foldl (enqueueStep phils t) s).queue = s.queue ++ ex := by
  intro A
  induction A with
  | nil => exact fun s => ⟨[], by simp⟩
  | cons a rest ih =>
      intro s
      obtain ⟨ex, hex⟩ := ih (enqueueStep phils t s a)
      have hstep : ∃ ex0, (enqueueStep phils t s a).queue = s.queue ++ ex0 := by
        unfold enqueueStep
        split
        · dsimp only
          split
          · exact ⟨[], by simp⟩
          · exact ⟨[a], rfl⟩
        · exact ⟨[], by simp⟩
      obtain ⟨ex0, hex0⟩ := hstep
      refine ⟨ex0 ++ ex, ?_⟩
      simp only [List.foldl_cons]
      rw [hex, hex0, List.append_assoc]

theorem enqueueWithPriority_queue_extension (phils : List Philosopher)
    (A : List String) (t : MessageEvent) (s : OrchestratorState) :
    ∃ ex, (enqueueWithPriority phils A t s).queue = s.queue ++ ex := by
  unfold enqueueWithPriority
  split
  · exact ⟨[], by simp⟩
  · exact foldl_queue_extension phils t A s

theorem posOf_append (x : String) (l l' : List String) (hx : x ∈ l) :
    posOf x (l ++ l') = posOf x l := by
  induction l with
  | nil => cases hx
  | cons y ys ih =>
      by_cases hyx : y = x
      · simp [posOf, hyx]
      · rcases List.mem_cons.mp hx with h | h
        · exact absurd h.symm hyx
        · simp [posOf, hyx, ih h]

theorem foldl_queue_mem (phils : List Philosopher) (t : MessageEvent) (X : String)
    (hval : philosopherMapHas phils X = true) :
    ∀ (A : List String) (s : OrchestratorState),
      X ∈ A → X ∈ (A.foldl (enqueueStep phils t) s).queue := by
  intro A
  induction A with
  | nil => intro s h; cases h
  | cons a rest ih =>
      intro s hmem
      simp only [List.foldl_cons]
      rcases List.mem_cons.mp hmem with h | h
      · subst h
        have hXq : X ∈ (enqueueStep phils t s X).queue := by
          unfold enqueueStep
          rw [if_pos hval]
          dsimp only
          split
          · next hq => exact hq
          · simp
        obtain ⟨ex, hex⟩ := foldl_queue_extension phils t rest (enqueueStep phils t s X)
        rw [hex]
        exact List.mem_append_left _ hXq
      · exact ih (enqueueStep phils t s a) h

theorem foldl_filter_valid (phils : List Philosopher) (t : MessageEvent) :
    ∀ (A : List String) (s : OrchestratorState),
      A.foldl (enqueueStep phils t) s
        = (A.filter (fun a => philosopherMapHas phils a)).foldl
            (enqueueStep phils t) s := by
  intro A
  induction A with
  | nil => intro s; rfl
  | cons a rest ih =>
      intro s
      by_cases hval : philosopherMapHas phils a = true
      · simp only [List.filter_cons, hval, if_true, List.foldl_cons]
        exact ih (enqueueStep phils t s a)
      · have hstep : enqueueStep phils t s a = s := by
          unfold enqueueStep
          rw [if_neg hval]
        simp only [List.filter_cons, Bool.not_eq_true] at *
        simp only [hval, Bool.false_eq_true, if_false, List.foldl_cons, hstep]
        exact ih s

theorem enqueueWithPriority_filter_valid (phils : List Philosopher)
    (A : List String) (t : MessageEvent) (s : OrchestratorState) :
    enqueueWithPriority phils A t s
      = enqueueWithPriority phils (A.filter (fun a => philosopherMapHas phils a))
          t s := by
  unfold enqueueWithPriority
  by_cases hA : A = []
  · subst hA
    simp
  · rw [if_neg hA]
    by_cases hF : A.filter (fun a => philosopherMapHas phils a) = []
    · rw [if_pos hF, foldl_filter_valid, hF]
      rfl
    · rw [if_neg hF, foldl_filter_valid]

theorem enqueueWithPriority_pending_count (phils : List Philosopher)
    (A : List String) (t : MessageEvent) (s : OrchestratorState) (X : String) :
    ((enqueueWithPriority phils A t s).pending X).length
      = (s.pending X).length
        + (if philosopherMapHas phils X = true then A.count X else 0) := by
  unfold enqueueWithPriority
  split
  · next h => subst h; simp
  · exact foldl_pending_count phils t X A s

/-- C7: Re-addressing an already queued agent does not move its queue
position — after a second `enqueueWithPriority` call, the agent named by
the first call keeps the position the first call gave it — while its
batch depth is the sum of its occurrences in both addressee lists, and
invalid ids in an addressee list are dropped without affecting the valid
ones. -/
theorem c7_readdressing_keeps_position (phils : List Philosopher)
    (A₁ A₂ : List String) (t₁ t₂ : MessageEvent) (X : String)
    (s : OrchestratorState) (hX : philosopherMapHas phils X = true)
    (hA1 : X ∈ A₁) (hpend : s.pending X = []) :
    posOf X (enqueueWithPriority phils A₂ t₂
        (enqueueWithPriority phils A₁ t₁ s)).queue
      = posOf X (enqueueWithPriority phils A₁ t₁ s).queue ∧
    ((enqueueWithPriority phils A₂ t₂
        (enqueueWithPriority phils A₁ t₁ s)).pending X).length
      = A₁.count X + A₂.count X ∧
    enqueueWithPriority phils A₁ t₁ s
      = enqueueWithPriority phils
          (A₁.filter (fun a => philosopherMapHas phils a)) t₁ s := by
  have hXq1 : X ∈ (enqueueWithPriority phils A₁ t₁ s).queue := by
    unfold enqueueWithPriority
    rw [if_neg (List.ne_nil_of_mem hA1)]
    exact foldl_queue_mem phils t₁ X hX A₁ s hA1
  refine ⟨?_, ?_, enqueueWithPriority_filter_valid phils A₁ t₁ s⟩
  · obtain ⟨ex, hex⟩ := enqueueWithPriority_queue_extension phils A₂ t₂
      (enqueueWithPriority phils A₁ t₁ s)
    rw [hex]
    exact posOf_append X _ ex hXq1
  · rw [enqueueWithPriority_pending_count, enqueueWithPriority_pending_count,
      hpend]
    simp [hX]

/-- Witness for C7: the spec scenario — enqueue b, c then c, a over the
table a, b, c; agent c keeps position 1 and ends with batch depth 2. -/
theorem c7_readdressing_keeps_position_witness :
    posOf "c" (enqueueWithPriority philsABC ["c", "a"] (mkMsg "t2" "moderator" [])
        (enqueueWithPriority philsABC ["b", "c"] (mkMsg "t1" "moderator" [])
          initState)).queue
      = posOf "c" (enqueueWithPriority philsABC ["b", "c"]
          (mkMsg "t1" "moderator" []) initState).queue ∧
    ((enqueueWithPriority philsABC ["c", "a"] (mkMsg "t2" "moderator" [])
        (enqueueWithPriority philsABC ["b", "c"] (mkMsg "t1" "moderator" [])
          initState)).pending "c").length
      = (["b", "c"].count "c") + (["c", "a"].count "c") ∧
    enqueueWithPriority philsABC ["b", "c"] (mkMsg "t1" "moderator" []) initState
      = enqueueWithPriority philsABC
          (["b", "c"].filter (fun a => philosopherMapHas philsABC a))
          (mkMsg "t1" "moderator" []) initState :=
  c7_readdressing_keeps_position philsABC ["b", "c"] ["c", "a"]
    (mkMsg "t1" "moderator" []) (mkMsg "t2" "moderator" []) "c" initState
    (by decide) (by decide) rfl

theorem dedupKeepFirst_mem (x : String) :
    ∀ (l seen : List String),
      (x ∈ dedupKeepFirst l seen ↔ x ∈ l ∧ x ∉ seen) := by
  intro l
  induction l with
  | nil => intro seen; simp [dedupKeepFirst]
  | cons y ys ih =>
      intro seen
      unfold dedupKeepFirst
      by_cases hy : y ∈ seen
      · rw [if_pos hy, ih]
        constructor
        · rintro ⟨h1, h2⟩
          exact ⟨List.mem_cons_of_mem _ h1, h2⟩
        · rintro ⟨h1, h2⟩
          rcases List.mem_cons.mp h1 with rfl | h1'
          · exact absurd hy h2
          · exact ⟨h1', h2⟩
      · rw [if_neg hy]
        constructor
        · intro hmem
          rcases List.mem_cons.mp hmem with rfl | hmem'
          · exact ⟨List.mem_cons_self _ _, hy⟩
          · have := (ih (y :: seen)).mp hmem'
            exact ⟨List.mem_cons_of_mem _ this.1,
              fun hseen => this.2 (List.mem_cons_of_mem _ hseen)⟩
        · rintro ⟨h1, h2⟩
          by_cases hxy : x = y
          · exact hxy ▸ List.mem_cons_self _ _
          · rcases List.mem_cons.mp h1 with rfl | h1'
            · exact absurd rfl hxy
            · exact List.mem_cons_of_mem _ ((ih (y :: seen)).mpr
                ⟨h1', fun hc => (List.mem_cons.mp hc).elim hxy h2⟩)

theorem dedupKeepFirst_nodup :
    ∀ (l seen : List String), (dedupKeepFirst l seen).Nodup := by
  intro l
  induction l with
  | nil => intro seen; exact List.nodup_nil
  | cons y ys ih =>
      intro seen
      unfold dedupKeepFirst
      by_cases hy : y ∈ seen
      · rw [if_pos hy]
        exact ih seen
      · rw [if_neg hy]
        refine List.nodup_cons.mpr ⟨?_, ih (y :: seen)⟩
        intro hc
        exact ((dedupKeepFirst_mem y ys (y :: seen)).mp hc).2
          (List.mem_cons_self _ _)

theorem pushTargets_mem (m : MessageEvent) (k : String) :
    k ∈ pushTargets m ↔ (k ∈ m.recipients ∨ k = "all") := by
  unfold pushTargets
  have hbase : ∀ x, x ∈ dedupKeepFirst
      (if m.recipients = [] then [] else m.recipients) [] ↔ x ∈ m.recipients := by
    intro x
    rw [dedupKeepFirst_mem]
    constructor
    · intro h
      rcases h with ⟨h1, _⟩
      split at h1
      · cases h1
      · exact h1
    · intro h
      refine ⟨?_, List.not_mem_nil x⟩
      split
      · next he => rw [he] at h; cases h
      · exact h
  dsimp only
  by_cases hall : "all" ∈ dedupKeepFirst
      (if m.recipients = [] then [] else m.recipients) []
  · rw [if_pos hall, hbase k]
    constructor
    · exact Or.inl
    · rintro (h | rfl)
      · exact h
      · exact (hbase "all").mp hall
  · rw [if_neg hall, List.mem_append, hbase k, List.mem_singleton]

theorem pushTargets_nodup (m : MessageEvent) : (pushTargets m).Nodup := by
  unfold pushTargets
  dsimp only
  by_cases hall : "all" ∈ dedupKeepFirst
      (if m.recipients = [] then [] else m.recipients) []
  · rw [if_pos hall]
    exact dedupKeepFirst_nodup _ []
  · rw [if_neg hall]
    simp only [List.nodup_append, List.nodup_cons, List.not_mem_nil,
      not_false_iff, List.nodup_nil, and_true, List.disjoint_singleton]
    exact ⟨dedupKeepFirst_nodup _ [], trivial, hall⟩

theorem foldl_bucket_update (f : List MemoryEntry → List MemoryEntry) :
    ∀ (ts : List String) (st : String → List MemoryEntry) (k : String),
      ts.Nodup →
      (ts.foldl (fun acc t => fun j => if j = t then f (acc t) else acc j) st) k
        = if k ∈ ts then f (st k) else st k := by
  intro ts
  induction ts with
  | nil => intro st k _; simp
  | cons t rest ih =>
      intro st k hnd
      simp only [List.foldl_cons]
      have hnotin : t ∉ rest := (List.nodup_cons.mp hnd).1
      rw [ih _ k (List.nodup_cons.mp hnd).2]
      by_cases hk : k ∈ rest
      · have hkt : k ≠ t := fun h => hnotin (h ▸ hk)
        rw [if_pos hk, if_pos (List.mem_cons_of_mem _ hk)]
        simp [hkt]
      · rw [if_neg hk]
        by_cases hkt : k = t
        · subst hkt
          simp
        · simp [hkt, List.mem_cons, hk]

theorem pushMemoryEntry_store (state : MemoryState) (message : MessageEvent)
    (k : String) :
    (pushMemoryEntry state message).store k
      = if k ∈ message.recipients ∨ k = "all"
        then sliceLast state.max (state.store k ++ [entryOfMessage message])
        else state.store k :=
  (foldl_bucket_update
      (fun l => sliceLast state.max (l ++ [entryOfMessage message]))
      (pushTargets message) state.store k (pushTargets_nodup message)).trans
    (if_congr (pushTargets_mem message k) rfl rfl)

theorem storeReplyInMemory_store (mem : MemoryState) (message : MessageEvent)
    (k : String) (hnd : message.recipients.Nodup) :
    (storeReplyInMemory mem message).store k
      = if k ∈ message.recipients
        then (if (mem.store k ++ [entryOfMessage message]).length > mem.max
              then sliceLast mem.max (mem.store k ++ [entryOfMessage message])
              else mem.store k ++ [entryOfMessage message])
        else mem.store k :=
  foldl_bucket_update
    (fun l =>
      if (l ++ [entryOfMessage message]).length > mem.max
      then sliceLast mem.max (l ++ [entryOfMessage message])
      else l ++ [entryOfMessage message])
    message.recipients mem.store k hnd

theorem takeLast_length_le {α : Type} (n : Nat) (l : List α) :
    (takeLast n l).length ≤ n := by
  unfold takeLast
  rw [List.length_reverse, List.length_take]
  exact Nat.min_le_left n _

theorem takeLast_nil {α : Type} (n : Nat) : takeLast n ([] : List α) = [] := by
  simp [takeLast]

theorem takeLast_append_one {α : Type} (m : Nat) (l : List α) (e : α) :
    takeLast (m + 1) (takeLast (m + 1) l ++ [e]) = takeLast (m + 1) (l ++ [e]) := by
  unfold takeLast
  rw [List.reverse_append, List.reverse_reverse, List.reverse_append]
  simp only [List.reverse_cons, List.reverse_nil, List.nil_append,
    List.singleton_append, List.take_succ_cons, List.take_take]
  rw [min_eq_left (Nat.le_succ m)]

theorem sliceLast_of_ne_zero {α : Type} {n : Nat} (h : n ≠ 0) (l : List α) :
    sliceLast n l = takeLast n l := by
  unfold sliceLast
  rw [if_neg h]

theorem foldl_push_store (k : String) :
    ∀ (msgs : List MessageEvent) (s : MemoryState) (h : List MemoryEntry),
      s.store k = takeLast s.max h → s.max ≠ 0 →
      (msgs.foldl pushMemoryEntry s).store k
        = takeLast s.max (h ++ (msgs.filter
            (fun m => decide (k ∈ m.recipients ∨ k = "all"))).map entryOfMessage) := by
  intro msgs
  induction msgs with
  | nil =>
      intro s h hk _
      simpa using hk
  | cons m rest ih =>
      intro s h hk hmax
      simp only [List.foldl_cons]
      have hmax' : (pushMemoryEntry s m).max = s.max := rfl
      by_cases hm : k ∈ m.recipients ∨ k = "all"
      · have hstore : (pushMemoryEntry s m).store k
            = takeLast s.max (h ++ [entryOfMessage m]) := by
          rw [pushMemoryEntry_store, if_pos hm, hk, sliceLast_of_ne_zero hmax]
          obtain ⟨mm, hmm⟩ : ∃ mm, s.max = mm + 1 :=
            ⟨s.max - 1, by omega⟩
          rw [hmm]
          exact takeLast_append_one mm h (entryOfMessage m)
        have hrec := ih (pushMemoryEntry s m) (h ++ [entryOfMessage m])
          (by rw [hmax']; exact hstore) (by rw [hmax']; exact hmax)
        rw [hmax'] at hrec
        rw [hrec]
        simp [List.filter_cons, hm, List.append_assoc]
      · have hstore : (pushMemoryEntry s m).store k = takeLast s.max h := by
          rw [pushMemoryEntry_store, if_neg hm]
          exact hk
        have hrec := ih (pushMemoryEntry s m) h
          (by rw [hmax']; exact hstore) (by rw [hmax']; exact hmax)
        rw [hmax'] at hrec
        rw [hrec]
        simp [List.filter_cons, hm]

/-- C8 is refuted as stated at cap `max = 0`: JavaScript `slice(-0)` is
`slice(0)`, the whole list, so a single append leaves the broadcast
bucket at length 1, exceeding the cap. -/
theorem c8_counterexample :
    ¬ (((pushMemoryEntry (createEmptyMemories [] 0) mEmptyRec).store "all").length
        ≤ (createEmptyMemories [] 0).max) := by decide

/-- C8 (amended: for a positive cap `max ≥ 1`; with `max = 0` the
`slice(-0)` truncation keeps the whole bucket): every store built by
`createEmptyMemories` followed by any sequence of `pushMemoryEntry`
appends holds, in each bucket, exactly the last `max` entries ever
appended to that bucket in append order — strict FIFO eviction — and
hence every bucket length is at most `max`. -/
theorem c8_bounded_fifo (phils : List Philosopher) (max : Nat)
    (msgs : List MessageEvent) (k : String) (hmax : 1 ≤ max) :
    (msgs.foldl pushMemoryEntry (createEmptyMemories phils max)).store k
      = takeLast max ((msgs.filter
          (fun m => decide (k ∈ m.recipients ∨ k = "all"))).map entryOfMessage) ∧
    ((msgs.foldl pushMemoryEntry (createEmptyMemories phils max)).store k).length
      ≤ max := by
  have h := foldl_push_store k msgs (createEmptyMemories phils max) []
    (by simp [createEmptyMemories, takeLast])
    (Nat.one_le_iff_ne_zero.mp hmax)
  have h' : (msgs.foldl pushMemoryEntry (createEmptyMemories phils max)).store k
      = takeLast max ((msgs.filter
          (fun m => decide (k ∈ m.recipients ∨ k = "all"))).map entryOfMessage) := by
    simpa [createEmptyMemories] using h
  refine ⟨h', ?_⟩
  rw [h']
  exact takeLast_length_le max _

/-- Witness for C8 (amended) at cap 1 with two appends: the bucket keeps
only the newer entry. -/
theorem c8_bounded_fifo_witness :
    ([mEmptyRec, mMod].foldl pushMemoryEntry
        (createEmptyMemories philsAB 1)).store "all"
      = takeLast 1 (([mEmptyRec, mMod].filter
          (fun m => decide ("all" ∈ m.recipients ∨ "all" = "all"))).map
            entryOfMessage) ∧
    (([mEmptyRec, mMod].foldl pushMemoryEntry
        (createEmptyMemories philsAB 1)).store "all").length ≤ 1 :=
  c8_bounded_fifo philsAB 1 [mEmptyRec, mMod] "all" (by decide)

/-- C4 is refuted as stated on the scheduler's in-batch store path: a
reply addressed to kongzi and moderator is appended by `pushMemoryEntry`
to the broadcast bucket, but the store step inside `processBatchedTasks`
never touches the broadcast bucket. -/
theorem c4_counterexample :
    entryOfMessage replyKongzi
        ∈ (pushMemoryEntry (createEmptyMemories [] 5) replyKongzi).store "all" ∧
    ¬ (entryOfMessage replyKongzi
        ∈ (storeReplyInMemory (createEmptyMemories [] 5) replyKongzi).store "all")
    := by decide

/-- C4 (amended): the Memory Store's `pushMemoryEntry` appends the
derived entry verbatim to exactly the deduplicated literal recipients
plus the broadcast bucket (broadcast only, when recipients is empty; the
broadcast sentinel is not expanded); the scheduler's in-batch store step
appends the entry to exactly the buckets literally named by the reply's
recipients (duplicate-free list) and does not add the broadcast
bucket. -/
theorem c4_memory_fanout (s : MemoryState) (m : MessageEvent) (k : String)
    (hnd : m.recipients.Nodup) :
    (pushMemoryEntry s m).store k
      = (if k ∈ m.recipients ∨ k = "all"
         then sliceLast s.max (s.store k ++ [entryOfMessage m])
         else s.store k) ∧
    (storeReplyInMemory s m).store k
      = (if k ∈ m.recipients
         then (if (s.store k ++ [entryOfMessage m]).length > s.max
               then sliceLast s.max (s.store k ++ [entryOfMessage m])
               else s.store k ++ [entryOfMessage m])
         else s.store k) :=
  ⟨pushMemoryEntry_store s m k, storeReplyInMemory_store s m k hnd⟩

/-- Witness for C4 (amended) on the kongzi bucket of the concrete reply. -/
theorem c4_memory_fanout_witness :
    (pushMemoryEntry (createEmptyMemories [] 5) replyKongzi).store "kongzi"
      = (if "kongzi" ∈ replyKongzi.recipients ∨ "kongzi" = "all"
         then sliceLast (createEmptyMemories [] 5).max
            ((createEmptyMemories [] 5).store "kongzi"
              ++ [entryOfMessage replyKongzi])
         else (createEmptyMemories [] 5).store "kongzi") ∧
    (storeReplyInMemory (createEmptyMemories [] 5) replyKongzi).store "kongzi"
      = (if "kongzi" ∈ replyKongzi.recipients
         then (if ((createEmptyMemories [] 5).store "kongzi"
                  ++ [entryOfMessage replyKongzi]).length
                  > (createEmptyMemories [] 5).max
               then sliceLast (createEmptyMemories [] 5).max
                  ((createEmptyMemories [] 5).store "kongzi"
                    ++ [entryOfMessage replyKongzi])
               else (createEmptyMemories [] 5).store "kongzi"
                    ++ [entryOfMessage replyKongzi])
         else (createEmptyMemories [] 5).store "kongzi") :=
  c4_memory_fanout (createEmptyMemories [] 5) replyKongzi "kongzi" (by decide)

theorem philosopherMapGet_of_has (phils : List Philosopher) (i : String)
    (h : philosopherMapHas phils i = true) :
    ∃ p, philosopherMapGet phils i = some p ∧ p.id = i := by
  induction phils with
  | nil => simp [philosopherMapHas, philosopherIdsOf] at h
  | cons q rest ih =>
      by_cases hq : q.id = i
      · refine ⟨q, ?_, hq⟩
        unfold philosopherMapGet
        rw [List.find?_cons_of_pos _ (by simp [hq])]
      · have h' : philosopherMapHas rest i = true := by
          unfold philosopherMapHas philosopherIdsOf at h ⊢
          simp only [List.map_cons, List.contains_cons, Bool.or_eq_true,
            beq_iff_eq] at h
          rcases h with h | h
          · exact absurd h.symm hq
          · exact h
        obtain ⟨p, hp, hpid⟩ := ih h'
        refine ⟨p, ?_, hpid⟩
        unfold philosopherMapGet at hp ⊢
        rw [List.find?_cons_of_neg _ (by simp [hq])]
        exact hp

theorem triggerMapInsert_ne_nil (m : List (String × MessageEvent)) (k : String)
    (v : MessageEvent) : triggerMapInsert m k v ≠ [] := by
  unfold triggerMapInsert
  split
  · next hany =>
      intro hc
      rw [List.map_eq_nil_iff] at hc
      subst hc
      simp at hany
  · intro hc
    simp at hc

theorem foldl_triggerMapInsert_ne_nil :
    ∀ (l : List ResponseTask) (m : List (String × MessageEvent)), m ≠ [] →
      l.foldl (fun acc t => triggerMapInsert acc t.trigger.id t.trigger) m ≠ [] := by
  intro l
  induction l with
  | nil => exact fun m hm => hm
  | cons x xs ih =>
      intro m _
      exact ih (triggerMapInsert m x.trigger.id x.trigger)
        (triggerMapInsert_ne_nil m _ _)

theorem uniqueByTriggerId_ne_nil (tasks : List ResponseTask) (h : tasks ≠ []) :
    uniqueByTriggerId tasks ≠ [] := by
  unfold uniqueByTriggerId
  intro hc
  rw [List.map_eq_nil_iff] at hc
  cases tasks with
  | nil => exact h rfl
  | cons t ts =>
      refine foldl_triggerMapInsert_ne_nil ts
        (triggerMapInsert [] t.trigger.id t.trigger)
        (triggerMapInsert_ne_nil [] _ _) ?_
      simpa using hc

theorem getLast?_of_ne_nil {α : Type} (l : List α) (h : l ≠ []) :
    ∃ x, l.getLast? = some x := by
  cases l with
  | nil => exact absurd rfl h
  | cons a as => exact ⟨(a :: as).getLast (by simp), List.getLast?_eq_getLast _ _⟩

theorem processBatched_failure (phils : List Philosopher) (currentPhase : String)
    (jsonParse : String → Option JsonObj) (replyId nowTs : String)
    (tasks : List ResponseTask) (s : OrchestratorState) (mem : MemoryState)
    (t₀ : ResponseTask) (p : Philosopher) (hh : tasks.head? = some t₀)
    (hg : philosopherMapGet phils t₀.philosopherId = some p) :
    processBatchedTasks phils currentPhase jsonParse none replyId nowTs tasks s mem
      = (s, mem,
        [SinkEvent.eventLog ("routing -> " ++ p.name),
         SinkEvent.eventLog "searching quotes...",
         SinkEvent.eventLog ("backend error (" ++ p.name ++ ")"),
         SinkEvent.backendError p.id]) := by
  have hne : tasks ≠ [] := by
    intro hc
    rw [hc] at hh
    cases hh
  obtain ⟨x, hx⟩ := getLast?_of_ne_nil (uniqueByTriggerId tasks)
    (uniqueByTriggerId_ne_nil tasks hne)
  unfold processBatchedTasks
  rw [hh]
  dsimp only
  rw [hg]
  dsimp only
  rw [hx]
  rfl

theorem queueInv_c2s0 : QueueInv c2s0 := by
  refine ⟨by decide, fun i => ?_⟩
  by_cases h1 : i = "a"
  · subst h1
    simp [c2s0, mkTask]
  · by_cases h2 : i = "b"
    · subst h2
      simp [c2s0, mkTask]
    · simp [c2s0, h1, h2]

/-- C2: A batch whose backend call rejects emits exactly one
`onBackendError` naming the batch's agent, does not rethrow (the model
is total), re-enqueues nothing and retries nothing — queue, pending map,
processed set and memory are exactly as the dequeue left them — while
the enclosing turn still releases the global lock, clears the speaker
marker, and the follow-up drain can start the already queued next agent
Y. -/
theorem c2_backend_failure_isolated (phils : List Philosopher)
    (currentPhase : String) (jsonParse : String → Option JsonObj)
    (replyId nowTs : String) (philosopherId Y : String)
    (s s₁ : OrchestratorState) (mem : MemoryState)
    (tasks : List ResponseTask) (t₀ : ResponseTask) (p : Philosopher)
    (hrun : runQueueStart philosopherId s = some (s₁, tasks))
    (hhead : tasks.head? = some t₀)
    (hget : philosopherMapGet phils t₀.philosopherId = some p)
    (hQI : QueueInv s)
    (hproc : ∀ i, s.processing i = false)
    (hYhead : (runTurnWith phils currentPhase jsonParse none replyId nowTs
        philosopherId s mem).1.queue.head? = some Y) :
    p.id = t₀.philosopherId ∧
    (runTurnWith phils currentPhase jsonParse none replyId nowTs philosopherId
        s mem).2.2.filter isBackendErrorEvent = [SinkEvent.backendError p.id] ∧
    (runTurnWith phils currentPhase jsonParse none replyId nowTs philosopherId
        s mem).1.queue = s₁.queue ∧
    (runTurnWith phils currentPhase jsonParse none replyId nowTs philosopherId
        s mem).1.pending = s₁.pending ∧
    (runTurnWith phils currentPhase jsonParse none replyId nowTs philosopherId
        s mem).1.processed = s₁.processed ∧
    (runTurnWith phils currentPhase jsonParse none replyId nowTs philosopherId
        s mem).2.1 = mem ∧
    (runTurnWith phils currentPhase jsonParse none replyId nowTs philosopherId
        s mem).1.globallyProcessing = false ∧
    (runTurnWith phils currentPhase jsonParse none replyId nowTs philosopherId
        s mem).1.currentSpeaker = none ∧
    drainTarget (runTurnWith phils currentPhase jsonParse none replyId nowTs
        philosopherId s mem).1 = some Y ∧
    (runQueueStart Y (runTurnWith phils currentPhase jsonParse none replyId
        nowTs philosopherId s mem).1).isSome = true := by
  obtain ⟨hpau, hglob, hpr, hpendne, hts, hs₁⟩ := runQueueStart_eq_some hrun
  have hbatch := processBatched_failure phils currentPhase jsonParse replyId
    nowTs tasks s₁ mem t₀ p hhead hget
  have hrt : runTurnWith phils currentPhase jsonParse none replyId nowTs
      philosopherId s mem
      = (endTurn philosopherId s₁, mem,
         [SinkEvent.eventLog ("routing -> " ++ p.name),
          SinkEvent.eventLog "searching quotes...",
          SinkEvent.eventLog ("backend error (" ++ p.name ++ ")"),
          SinkEvent.backendError p.id]) := by
    unfold runTurnWith
    rw [hrun]
    dsimp only
    rw [hbatch]
  have hpid : p.id = t₀.philosopherId := by
    have hget' : phils.find? (fun q => q.id = t₀.philosopherId) = some p := hget
    have := List.find?_some hget'
    simpa using this
  have hend_pau : (endTurn philosopherId s₁).isPaused = s₁.isPaused := rfl
  have hs₁pau : s₁.isPaused = false := by
    rw [hs₁]
    exact hpau
  have hend_lock : (endTurn philosopherId s₁).globallyProcessing = false := rfl
  rw [hrt] at hYhead
  dsimp only [endTurn] at hYhead
  have hYmem : Y ∈ s₁.queue := by
    cases hq : s₁.queue with
    | nil =>
        rw [hq] at hYhead
        simp at hYhead
    | cons a l =>
        rw [hq] at hYhead
        have ha : a = Y := by simpa using hYhead
        rw [← ha]
        exact List.mem_cons_self a l
  have hQI1 : QueueInv s₁ := queueInv_runQueueStart hQI hrun
  have hYpend : s₁.pending Y ≠ [] := (hQI1.2 Y).mp hYmem
  have hs₁procY : s₁.processing Y = (if Y = philosopherId then true
      else s.processing Y) := by
    rw [hs₁]
  have hYproc : (endTurn philosopherId s₁).processing Y = false := by
    by_cases hYp : Y = philosopherId
    · simp [endTurn, hYp]
    · simp only [endTurn, if_neg hYp]
      rw [hs₁procY, if_neg hYp]
      exact hproc Y
  have hend_pend : (endTurn philosopherId s₁).pending = s₁.pending := rfl
  have hrqY : (runQueueStart Y (endTurn philosopherId s₁)).isSome = true := by
    unfold runQueueStart
    simp [hend_pau, hs₁pau, hend_lock, hYproc, hend_pend, hYpend]
  refine ⟨hpid, ?_, ?_, ?_, ?_, ?_, ?_, ?_, ?_, ?_⟩
  · rw [hrt]
    simp [isBackendErrorEvent]
  · rw [hrt]
    rfl
  · rw [hrt]
    rfl
  · rw [hrt]
    rfl
  · rw [hrt]
  · rw [hrt]
    rfl
  · rw [hrt]
    rfl
  · rw [hrt]
    dsimp only
    unfold drainTarget
    rw [hend_pau, hs₁pau]
    simpa [endTurn] using hYhead
  · rw [hrt]
    exact hrqY

/-- Witness for C2: agents a and b queued, a's turn runs against a
rejecting backend; exactly one backend error names a, the queue state is
untouched, the lock is released, and b can be drained next. -/
theorem c2_backend_failure_isolated_witness :
    (Philosopher.mk "a" "A").id = (mkTask "a" mAB).philosopherId ∧
    (runTurnWith philsAB "introduce" (fun _ => none) none "r1" "t1" "a" c2s0
        (createEmptyMemories philsAB 50)).2.2.filter isBackendErrorEvent
      = [SinkEvent.backendError (Philosopher.mk "a" "A").id] ∧
    (runTurnWith philsAB "introduce" (fun _ => none) none "r1" "t1" "a" c2s0
        (createEmptyMemories philsAB 50)).1.queue = c2s1.queue ∧
    (runTurnWith philsAB "introduce" (fun _ => none) none "r1" "t1" "a" c2s0
        (createEmptyMemories philsAB 50)).1.pending = c2s1.pending ∧
    (runTurnWith philsAB "introduce" (fun _ => none) none "r1" "t1" "a" c2s0
        (createEmptyMemories philsAB 50)).1.processed = c2s1.processed ∧
    (runTurnWith philsAB "introduce" (fun _ => none) none "r1" "t1" "a" c2s0
        (createEmptyMemories philsAB 50)).2.1 = createEmptyMemories philsAB 50 ∧
    (runTurnWith philsAB "introduce" (fun _ => none) none "r1" "t1" "a" c2s0
        (createEmptyMemories philsAB 50)).1.globallyProcessing = false ∧
    (runTurnWith philsAB "introduce" (fun _ => none) none "r1" "t1" "a" c2s0
        (createEmptyMemories philsAB 50)).1.currentSpeaker = none ∧
    drainTarget (runTurnWith philsAB "introduce" (fun _ => none) none "r1" "t1"
        "a" c2s0 (createEmptyMemories philsAB 50)).1 = some "b" ∧
    (runQueueStart "b" (runTurnWith philsAB "introduce" (fun _ => none) none
        "r1" "t1" "a" c2s0 (createEmptyMemories philsAB 50)).1).isSome = true :=
  c2_backend_failure_isolated philsAB "introduce" (fun _ => none) "r1" "t1"
    "a" "b" c2s0 c2s1 (createEmptyMemories philsAB 50) c2tasks (mkTask "a" mAB)
    (Philosopher.mk "a" "A") rfl rfl rfl queueInv_c2s0 (fun _ => rfl) rfl

/-- C10 (implicit): the double-newline fallback of `parseModelResponse`
runs whenever the JSON stage yielded no reasoning, even when the JSON
block supplied the final text: for a raw string whose extracted JSON
object has a non-empty final-text field but a nullish reasoning chain,
and which contains a blank-line separator with non-empty trimmed text on
both sides, the returned `finalText` is the post-separator raw text (the
JSON-supplied final text is discarded) and the pre-separator text
becomes `reasoning`. -/
theorem c10_fallback_overrides_json (jsonParse : String → Option JsonObj)
    (raw : String) (firstBrace lastBrace sep : Nat) (obj : JsonObj)
    (fin : String)
    (h1 : charIndexOf '\x7b' raw.toList = some firstBrace)
    (h2 : charLastIndexOf '\x7d' raw.toList = some lastBrace)
    (h3 : firstBrace < lastBrace)
    (h4 : jsonParse (((raw.toList.drop firstBrace).take
          (lastBrace + 1 - firstBrace)).asString) = some obj)
    (h5 : coalesce [obj.final, obj.answer, obj.response, obj.surface]
          = some (JsonValue.str fin))
    (h6 : jsTrim fin.toList ≠ [])
    (h7 : coalesce [obj.reasoning, obj.analysis, obj.thinking] = none)
    (h8 : subIndexOf ['\n', '\n'] (normalizeNewlines raw.toList) = some sep)
    (h9 : jsTrim ((normalizeNewlines raw.toList).take sep) ≠ [])
    (h10 : jsTrim ((normalizeNewlines raw.toList).drop (sep + 2)) ≠ []) :
    (parseModelResponse jsonParse raw).finalText
      = (jsTrim ((normalizeNewlines raw.toList).drop (sep + 2))).asString ∧
    (parseModelResponse jsonParse raw).reasoning
      = some (jsTrim ((normalizeNewlines raw.toList).take sep)).asString := by
  have hstage : ∃ ads, parseJsonStage jsonParse raw.toList
      = (jsTrim fin.toList, none, ads) := by
    unfold parseJsonStage
    rw [h1, h2]
    dsimp only
    rw [if_pos h3, h4]
    dsimp only
    rw [h5, h7]
    dsimp only
    rw [if_neg h6]
    exact ⟨_, rfl⟩
  obtain ⟨ads, hstage⟩ := hstage
  unfold parseModelResponse
  dsimp only
  rw [hstage]
  dsimp only
  rw [h8]
  dsimp only
  rw [if_pos ⟨h9, h10⟩]
  exact ⟨rfl, rfl⟩

/-- Witness for C10: the JSON block supplies only a final text; the raw
string also has a blank line, so the text after it wins and the JSON
block itself becomes the reasoning. -/
theorem c10_fallback_overrides_json_witness :
    (parseModelResponse c10jsonParse c10raw).finalText
      = (jsTrim ((normalizeNewlines c10raw.toList).drop (22 + 2))).asString ∧
    (parseModelResponse c10jsonParse c10raw).reasoning
      = some (jsTrim ((normalizeNewlines c10raw.toList).take 22)).asString :=
  c10_fallback_overrides_json c10jsonParse c10raw 0 21 22 c10obj "json says"
    (by decide) (by decide) (by decide) rfl rfl (by decide) rfl (by decide)
    (by decide) (by decide)
